import Mathlib

/-!
Shallow embedding of the generic red-black tree in `RBTree.c` (with the client
helpers of `Structs.c` out of scope), together with proofs of the specified
properties.

Modelling conventions:

* A C `Node` (declared in `RBTree.h`, used throughout `RBTree.c`) carries a
  color, a data pointer, two owned children and a parent back-pointer.  The
  child structure is modelled by the inductive `Tree`; the parent pointers are
  modelled by zipper paths (`Step` lists): a node together with the list of
  steps from it up to the root carries exactly the information the C code can
  reach through `parent` links.
* The caller-supplied comparator (`CompareFunc`) is required by the spec to be
  a consistent total order; it is modelled by `compare` of a `LinearOrder`.
* `void *` data pointers can be `NULL`.  The insertion and traversal code of
  `RBTree.c` never tests data for `NULL`, so those functions are modelled over
  an arbitrary element type `α`; `containsRBTree` and `freeNodes` do test for
  `NULL` and are modelled over the pointer type `Ptr β` (`Ptr.null` = `NULL`).
* Heap allocation is assumed to succeed (`makeNewNode` lines 305-319 and
  `newRBTree` lines 42-55 only fail on `malloc` failure).  Where the C code
  dereferences a `NULL` pointer, the model returns `none`.
-/

namespace RBC

/-- The `Color` enum from `RBTree.h` (used at lines 226-227, 240, 245, ...). -/
inductive Color : Type where
  | red
  | black
deriving DecidableEq, Repr

/-- The child structure of a C `Node`: color, left child, data, right child.
`nil` is the `NULL` pointer in a child slot. -/
inductive Tree (α : Type) : Type where
  | nil : Tree α
  | node (color : Color) (left : Tree α) (data : α) (right : Tree α) : Tree α
deriving DecidableEq, Repr

/-- Which child slot of its parent a node occupies. -/
inductive Dir : Type where
  | left
  | right
deriving DecidableEq, Repr

/-- One step of a zipper path: the parent's color and data, the side on which
the path descends, and the untouched subtree on the other side. -/
structure Step (α : Type) : Type where
  dir : Dir
  color : Color
  data : α
  sibling : Tree α
deriving DecidableEq, Repr

variable {α : Type} {β : Type}

namespace Tree

/-- In-order element list (left, data, right). -/
def toList : Tree α → List α
  | .nil => []
  | .node _ l x r => toList l ++ x :: toList r

/-- Post-order element list (left, right, data): the order `freeNodes`
(RBTree.c lines 326-345) releases elements. -/
def postList : Tree α → List α
  | .nil => []
  | .node _ l x r => postList l ++ postList r ++ [x]

/-- Height of the tree (empty tree has height 0). -/
def height : Tree α → Nat
  | .nil => 0
  | .node _ l _ r => max (height l) (height r) + 1

/-- Applies a function to every stored element. -/
def map (f : α → β) : Tree α → Tree β
  | .nil => .nil
  | .node c l x r => .node c (map f l) (f x) (map f r)

/-- Recolors the root black (`toModify->color = BLACK`, line 240). -/
def setBlack : Tree α → Tree α
  | .nil => .nil
  | .node _ l x r => .node .black l x r

end Tree

/-- Plugs a subtree back under its parent step. -/
def assemble (s : Step α) (t : Tree α) : Tree α :=
  match s.dir with
  | .left => .node s.color t s.data s.sibling
  | .right => .node s.color s.sibling s.data t

/-- Plugs a subtree back under a whole path (innermost ancestor first),
recovering the complete tree. -/
def rebuild : List (Step α) → Tree α → Tree α
  | [], t => t
  | s :: p, t => rebuild p (assemble s t)

section Ops

variable [LinearOrder α]

/-- `isRightChild` (RBTree.c lines 64-76).  Returns `0` if the node has no
parent; returns `1` when the parent's right child exists and its data compares
equal to the node's data, and `-1` otherwise.  On the zipper, the node's
parent is the head step; the parent's right child is the node itself when the
step descends right, and the step's sibling when it descends left. -/
def isRightChild (nodeData : α) : Option (Step α) → Int
  | none => 0
  | some s =>
    match s.dir, s.sibling with
    | .right, _ => if compare nodeData nodeData = .eq then 1 else -1
    | .left, .nil => -1
    | .left, .node _ _ sd _ => if compare sd nodeData = .eq then 1 else -1

/-- The left child of the grandparent, given the parent subtree `P` and the
grandparent step `g`. -/
def gChildL (P : Tree α) (g : Step α) : Tree α :=
  match g.dir with
  | .left => P
  | .right => g.sibling

/-- The right child of the grandparent. -/
def gChildR (P : Tree α) (g : Step α) : Tree α :=
  match g.dir with
  | .left => g.sibling
  | .right => P

/-- `findUncle` (lines 84-91): the grandparent's left child when the parent is
classified as a right child, otherwise the grandparent's right child. -/
def findUncle (pdata : α) (P : Tree α) (g : Step α) : Tree α :=
  if isRightChild pdata (some g) = 1 then gChildL P g else gChildR P g

/-- The reattachment performed inside `leftLeftSwitch` / `rightRightSwitch`
(lines 120-135 and 172-187): `parent->parent = grandparent->parent`; when that
is `NULL` the parent becomes the root, otherwise the side is chosen by
`isRightChild` on the grandparent.  The model checks that this comparator
driven choice agrees with the structural side recorded in the zipper.  When it
does not (possible only when two stored elements compare equal) the C code
overwrites the wrong child slot of the great-grandparent and the node graph
stops being a tree; the model returns `none` in that case. -/
def reattachOk (gdata : α) : List (Step α) → Bool
  | [] => true
  | gg :: _ => decide ((isRightChild gdata (some gg) = 1) ↔ gg.dir = .right)

/-- `modifyRedBlack` (lines 204-228): the red-parent/black-uncle rotations.
`t` is the subtree rooted at `newNode`, `p` and `g` the parent and grandparent
steps, `rest` the path above the grandparent (used only for the reattachment
side check).  Returns the subtree that ends standing where the grandparent
stood, already recolored (`parent->color = BLACK; grandparent->color = RED`,
lines 226-227); `none` models the comparator/structure mismatches under which
the pointer surgery corrupts the node graph. -/
def modifyRedBlack (t : Tree α) (p g : Step α) (rest : List (Step α)) :
    Option (Tree α) :=
  match t with
  | .nil => none
  | .node _ncol nl nx nr =>
    if reattachOk g.data rest = false then none else
    let nCT := isRightChild nx (some p)
    let pCT := isRightChild p.data (some g)
    if pCT = -1 then
      match g.dir with
      | .right => none
      | .left =>
        if nCT = 1 then
          match p.dir with
          | .left => none
          | .right =>
            -- leftRightSwitch (99-110), then leftLeftSwitch (118-143) with
            -- parent := newNode, then the recolor
            some (.node .black (.node p.color p.sibling p.data nl) nx
              (.node .red nr g.data g.sibling))
        else
          match p.dir with
          | .right => none
          | .left =>
            -- leftLeftSwitch (118-143), then the recolor
            some (.node .black t p.data (.node .red p.sibling g.data g.sibling))
    else if pCT = 1 then
      match g.dir with
      | .left => none
      | .right =>
        if nCT = -1 then
          match p.dir with
          | .right => none
          | .left =>
            -- rightLeftSwitch (151-162), then rightRightSwitch (170-195) with
            -- parent := newNode, then the recolor
            some (.node .black (.node .red g.sibling g.data nl) nx
              (.node p.color nr p.data p.sibling))
        else
          match p.dir with
          | .left => none
          | .right =>
            -- rightRightSwitch (170-195), then the recolor
            some (.node .black (.node .red g.sibling g.data p.sibling) p.data t)
    else
      -- isRightChild never returns 0 for a node that has a parent; the C code
      -- would fall through both branches and only recolor (lines 226-227)
      some (assemble { g with color := .red } (assemble { p with color := .black } t))

/-- The recoloring block of the red-uncle case of `modifyNode` (lines 252-258):
`parent->color = BLACK; uncle->color = BLACK; grandparent->color = RED`.
`P` is the parent subtree, `g` the grandparent step; the recolors hit the
physical nodes selected by the comparator-based `findUncle`, so when the
comparator confuses the sides (equal stored data) the parent is the node
blackened twice and the true sibling keeps its color. -/
def recolorG (pdata : α) (P : Tree α) (g : Step α) : Tree α :=
  if isRightChild pdata (some g) = 1 then
    match g.dir with
    | .left => .node .red P.setBlack g.data g.sibling
    | .right => .node .red g.sibling.setBlack g.data P.setBlack
  else
    match g.dir with
    | .left => .node .red P.setBlack g.data g.sibling.setBlack
    | .right => .node .red g.sibling g.data P.setBlack

/-- `modifyNode` (lines 235-265), the post-insertion fixup, on the zipper.
`t` is the subtree rooted at `toModify`, the path lists its proper ancestors
(parent first).  `none` models the `NULL` dereferences: a `NULL` `toModify`,
and `findUncle` reading `parent->parent->...` when the parent is the root
(which cannot happen, as the comment at line 249 records, because a red parent
is never the root). -/
def modifyNode : Tree α → List (Step α) → Option (Tree α)
  | .nil, _ => none
  | .node c l x r, [] => some ((Tree.node c l x r).setBlack)
  | .node c l x r, p :: rest =>
    if p.color = .black then
      -- the parent is black: nothing to repair (lines 245-248)
      some (rebuild rest (assemble p (.node c l x r)))
    else
      match rest with
      | [] => none
      | g :: rest2 =>
        let P := assemble p (.node c l x r)
        match findUncle p.data P g with
        | .node .red _ _ _ =>
          -- red uncle (lines 252-261): parent → BLACK, uncle → BLACK,
          -- grandparent → RED, then fixup restarts from the grandparent
          modifyNode (recolorG p.data P g) rest2
        | _ => (modifyRedBlack (.node c l x r) p g rest2).map (rebuild rest2)

/-- `addNewNode` (lines 273-298): BST descent placing the new node.  Returns
the zipper path (parent first) of the empty slot where the node is attached,
or `none` when an equal element is met (`FAILURE`, line 278).  The `nil` case
is unreachable from `addToRBTree`, which only passes a non-`NULL` root. -/
def addNewNode (x : α) : Tree α → Option (List (Step α))
  | .nil => none
  | .node c l d r =>
    match compare x d with
    | .eq => none
    | .lt =>
      match l with
      | .nil => some [⟨.left, c, d, r⟩]
      | l => (addNewNode x l).map (· ++ [⟨.left, c, d, r⟩])
    | .gt =>
      match r with
      | .nil => some [⟨.right, c, d, l⟩]
      | r => (addNewNode x r).map (· ++ [⟨.right, c, d, l⟩])

end Ops

/-- The `RBTree` struct from `RBTree.h`: root and element count.  The
`compFunc` capability is modelled by the `LinearOrder` instance and the
`freeFunc` capability by `freeNodes` returning the list of its arguments. -/
structure RBTree (α : Type) : Type where
  root : Tree α
  size : Nat
deriving DecidableEq, Repr

/-- `newRBTree` (lines 42-55): empty root, size 0 (allocation succeeding). -/
def newRBTree : RBTree α := ⟨.nil, 0⟩

/-- `makeNewNode` (lines 305-319): a fresh red node with no children. -/
def makeNewNode (data : α) : Tree α := .node .red .nil data .nil

section Ops2

variable [LinearOrder α]

/-- `addToRBTree` (lines 353-372): returns the success flag and the updated
tree.  `none` propagates the model's unreachable `NULL`-dereference cases from
the fixup. -/
def addToRBTree (t : RBTree α) (x : α) : Option (Bool × RBTree α) :=
  match t.root with
  | .nil => (modifyNode (makeNewNode x) []).map fun r => (true, ⟨r, t.size + 1⟩)
  | root =>
    match addNewNode x root with
    | none => some (false, t)
    | some path =>
      (modifyNode (makeNewNode x) path).map fun r => (true, ⟨r, t.size + 1⟩)

/-- A sequence of `addToRBTree` calls; also counts the successful insertions. -/
def insertAll : RBTree α → List α → Option (RBTree α × Nat)
  | t, [] => some (t, 0)
  | t, x :: xs =>
    match addToRBTree t x with
    | none => none
    | some (ok, t') =>
      (insertAll t' xs).map fun r => (r.1, (if ok then 1 else 0) + r.2)

/-- `addToRBTree` once more (lines 353-372), instrumented with resource
accounting: the last two components are the number of nodes allocated by the
call and still owned by the tree when it returns (`makeNewNode`'s `malloc` at
line 307, minus the `free(newNode)` at line 366 on the duplicate path) and the
number of `freeFunc` invocations the call performs (the insertion path of
`RBTree.c` contains none). -/
def addToRBTreeAlloc (t : RBTree α) (x : α) :
    Option (Bool × RBTree α × Nat × Nat) :=
  match t.root with
  | .nil =>
    (modifyNode (makeNewNode x) []).map fun r => (true, ⟨r, t.size + 1⟩, 1, 0)
  | root =>
    match addNewNode x root with
    | none => some (false, t, 0, 0)
    | some path =>
      (modifyNode (makeNewNode x) path).map fun r => (true, ⟨r, t.size + 1⟩, 1, 0)

/-- `modifyNode` with an explicit recursion budget: one unit per call, outer
`none` when the budget runs out.  The fueled version witnesses the
termination bound of the C recursion at line 259. -/
def modifyNodeFuel : Nat → Tree α → List (Step α) → Option (Option (Tree α))
  | 0, _, _ => none
  | _ + 1, .nil, _ => some none
  | _ + 1, .node c l x r, [] => some (some ((Tree.node c l x r).setBlack))
  | fuel + 1, .node c l x r, p :: rest =>
    if p.color = .black then
      some (some (rebuild rest (assemble p (.node c l x r))))
    else
      match rest with
      | [] => some none
      | g :: rest2 =>
        let P := assemble p (.node c l x r)
        match findUncle p.data P g with
        | .node .red _ _ _ => modifyNodeFuel fuel (recolorG p.data P g) rest2
        | _ => some ((modifyRedBlack (.node c l x r) p g rest2).map (rebuild rest2))

end Ops2

section Traverse

variable {σ : Type}

/-- `forEachNode` (lines 413-434): in-order traversal.  The visitor's `args`
pointer is modelled by state-passing of type `σ`; the visitor returns `false`
(C: `0`) to stop.  `none` models the call with `node == NULL`, on which the C
code immediately dereferences `node->left`; the recursive calls are guarded by
`node->left != NULL` / `node->right != NULL` checks and never do that. -/
def forEachNode (f : α → σ → Bool × σ) : Tree α → σ → Option (Bool × σ)
  | .nil, _ => none
  | .node _ .nil x .nil, s₀ =>
    -- both `node->left != NULL` and `node->right != NULL` guards fail
    match f x s₀ with
    | (false, s₂) => some (false, s₂)
    | (true, s₂) => some (true, s₂)
  | .node _ .nil x (.node rc rl rx rr), s₀ =>
    -- only the right guard succeeds
    match f x s₀ with
    | (false, s₂) => some (false, s₂)
    | (true, s₂) => forEachNode f (.node rc rl rx rr) s₂
  | .node _ (.node lc ll lx lr) x .nil, s₀ =>
    -- only the left guard succeeds
    match forEachNode f (.node lc ll lx lr) s₀ with
    | none => none
    | some (false, s₁) => some (false, s₁)
    | some (true, s₁) =>
      match f x s₁ with
      | (false, s₂) => some (false, s₂)
      | (true, s₂) => some (true, s₂)
  | .node _ (.node lc ll lx lr) x (.node rc rl rx rr), s₀ =>
    -- both guards succeed
    match forEachNode f (.node lc ll lx lr) s₀ with
    | none => none
    | some (false, s₁) => some (false, s₁)
    | some (true, s₁) =>
      match f x s₁ with
      | (false, s₂) => some (false, s₂)
      | (true, s₂) => forEachNode f (.node rc rl rx rr) s₂

/-- `forEachRBTree` (lines 444-451): after the `tree == NULL || func == NULL`
guards (outside this model of total values), it calls `forEachNode` on the
root without checking it for `NULL`. -/
def forEachRBTree (t : RBTree α) (f : α → σ → Bool × σ) (s : σ) :
    Option (Bool × σ) :=
  forEachNode f t.root s

/-- Specification-side visitor runner: folds the visitor over a list,
stopping at the first `false`. -/
def runVisitor (f : α → σ → Bool × σ) : List α → σ → Bool × σ
  | [], s => (true, s)
  | x :: xs, s =>
    match f x s with
    | (false, s') => (false, s')
    | (true, s') => runVisitor f xs s'

/-- The visitor of the early-stop property: its state counts its invocations,
and it signals stop exactly on the `k`-th invocation (the `k`-th element in
ascending order, since the traversal is in-order). -/
def stopAt (k : Nat) : α → Nat → Bool × Nat :=
  fun _ c => (decide (c + 1 ≠ k), c + 1)

end Traverse

/-- A `void *` data pointer: `NULL`, or a valid pointer carrying a `β`
value. -/
inductive Ptr (β : Type) : Type where
  | null : Ptr β
  | valid (val : β) : Ptr β
deriving DecidableEq, Repr

/-- Embedding of data pointers into `WithBot β`: `NULL` below every valid
pointer.  Used to transfer the `β` order to `Ptr β`, giving a consistent
total-order comparator on pointers as the claims hypothesise (the code paths
modelled over `Ptr` never actually compare `NULL`). -/
def Ptr.up : Ptr β → WithBot β
  | .null => ⊥
  | .valid a => (a : WithBot β)

instance ptrLinearOrder [LinearOrder β] : LinearOrder (Ptr β) :=
  LinearOrder.lift' Ptr.up (fun a b h => by
    cases a <;> cases b <;>
      simp_all only [Ptr.up, WithBot.bot_ne_coe, WithBot.coe_ne_bot, WithBot.coe_inj])

section Nullable

variable [LinearOrder β]

/-- The loop of `containsRBTree` (lines 386-402): runs while the current node
is non-`NULL` and its data is non-`NULL`; compares `compFunc(curNode->data,
data)`; equal hits succeed, positive goes left, negative goes right.  Falling
off (or reaching a node with `NULL` data) is `FAILURE`. -/
def containsNode : Tree (Ptr β) → β → Bool
  | .nil, _ => false
  | .node _ l od r, d =>
    match od with
    | .null => false
    | .valid nd =>
      match compare nd d with
      | .eq => true
      | .gt => containsNode l d
      | .lt => containsNode r d

/-- `containsRBTree` (lines 380-404): `FAILURE` when the tree is `NULL` (not
modelled: trees are values), the data argument is `NULL`, or the root is
`NULL`; otherwise the descent loop. -/
def containsRBTree (t : RBTree (Ptr β)) (data : Ptr β) : Bool :=
  match data with
  | .null => false
  | .valid d =>
    match t.root with
    | .nil => false
    | root => containsNode root d

/-- The `containsRBTree` loop instrumented with the number of comparator
invocations. -/
def containsNodeCmps : Tree (Ptr β) → β → Nat → Bool × Nat
  | .nil, _, k => (false, k)
  | .node _ l od r, d, k =>
    match od with
    | .null => (false, k)
    | .valid nd =>
      match compare nd d with
      | .eq => (true, k + 1)
      | .gt => containsNodeCmps l d (k + 1)
      | .lt => containsNodeCmps r d (k + 1)

/-- `containsRBTree` (lines 380-404) instrumented with the number of
comparator invocations performed. -/
def containsRBTreeCmps (t : RBTree (Ptr β)) (data : Ptr β) : Bool × Nat :=
  match data with
  | .null => (false, 0)
  | .valid d =>
    match t.root with
    | .nil => (false, 0)
    | root => containsNodeCmps root d 0

end Nullable

/-- `freeNodes` (lines 326-345): the list of arguments passed to the
`freeFunc` destructor, in call order — left subtree first, then right
subtree, then the node's own data when it is non-`NULL`. -/
def freeNodes : Tree (Ptr β) → List β
  | .nil => []
  | .node _ l od r =>
    freeNodes l ++ freeNodes r ++ (match od with | .null => [] | .valid v => [v])

/-- `freeRBTree` (lines 457-467): destroys the nodes from the root (a `NULL`
root leads to no destructor call), then frees the tree struct.  The value is
the list of arguments passed to the destructor capability. -/
def freeRBTree (t : RBTree (Ptr β)) : List β :=
  freeNodes t.root

/-! ## Red-black invariants (spec §3) -/

/-- The root is black (spec §3 invariant 2); vacuous for an absent root. -/
def rootBlack : Tree α → Prop
  | .nil => True
  | .node c _ _ _ => c = .black

/-- No red node has a red child (spec §3 invariant 3). -/
def noRedRed : Tree α → Prop
  | .nil => True
  | .node c l _ r => (c = .red → rootBlack l ∧ rootBlack r) ∧ noRedRed l ∧ noRedRed r

/-- `BlackHeight t n`: every path from the root of `t` to any absent-child
position passes through exactly `n` black nodes (spec §3 invariant 4; the
inductive structure forces the count to agree at every node). -/
inductive BlackHeight : Tree α → Nat → Prop where
  | nil : BlackHeight .nil 0
  | red {l : Tree α} {x : α} {r : Tree α} {n : Nat} :
      BlackHeight l n → BlackHeight r n → BlackHeight (.node .red l x r) n
  | black {l : Tree α} {x : α} {r : Tree α} {n : Nat} :
      BlackHeight l n → BlackHeight r n → BlackHeight (.node .black l x r) (n + 1)

/-- `Balanced t c n`: `t` has root color `c`, black-height `n`, and satisfies
the red-black balance invariants (no red-red edge, equal black counts). -/
inductive Balanced : Tree α → Color → Nat → Prop where
  | nil : Balanced .nil .black 0
  | red {l : Tree α} {x : α} {r : Tree α} {n : Nat} :
      Balanced l .black n → Balanced r .black n → Balanced (.node .red l x r) .red n
  | black {l : Tree α} {x : α} {r : Tree α} {n : Nat} {c₁ c₂ : Color} :
      Balanced l c₁ n → Balanced r c₂ n → Balanced (.node .black l x r) .black (n + 1)

/-- Balance invariant for a zipper path (the scheme of the Batteries red-black
tree development): `PathBal c₀ n₀ path c n` means `path` is a valid red-black
context around a hole expecting a `Balanced · c n` subtree; plugging one in
yields a `Balanced · c₀ n₀` tree (`PathBal.fill`). -/
inductive PathBal (c₀ : Color) (n₀ : Nat) : List (Step α) → Color → Nat → Prop where
  | root : PathBal c₀ n₀ [] c₀ n₀
  | redStep {s : Step α} {rest : List (Step α)} {n : Nat} :
      s.color = .red → Balanced s.sibling .black n → PathBal c₀ n₀ rest .red n →
      PathBal c₀ n₀ (s :: rest) .black n
  | blackStep {s : Step α} {rest : List (Step α)} {n : Nat} {c cs : Color} :
      s.color = .black → Balanced s.sibling cs n → PathBal c₀ n₀ rest .black (n + 1) →
      PathBal c₀ n₀ (s :: rest) c n

/-- The in-order elements a path contributes to the left of its hole. -/
def leftList : List (Step α) → List α
  | [] => []
  | s :: p =>
    leftList p ++ (match s.dir with
      | .left => []
      | .right => s.sibling.toList ++ [s.data])

/-- The in-order elements a path contributes to the right of its hole. -/
def rightList : List (Step α) → List α
  | [] => []
  | s :: p =>
    (match s.dir with
      | .left => s.data :: s.sibling.toList
      | .right => []) ++ rightList p

/-- The maintained invariant of an API tree: sorted in-order element list,
balanced black-rooted node graph, and accurate element count. -/
def RBInv [LinearOrder α] (t : RBTree α) : Prop :=
  ((t.root.toList)).Sorted (· < ·) ∧ (∃ n, Balanced t.root .black n) ∧
    t.size = t.root.toList.length

/-- The trees reachable through the public API: a fresh tree, or the result of
any completed `addToRBTree` call on a reachable tree. -/
inductive Built [LinearOrder α] : RBTree α → Prop where
  | new : Built newRBTree
  | ins {t : RBTree α} {x : α} {b : Bool} {t' : RBTree α} :
      Built t → addToRBTree t x = some (b, t') → Built t'

/-! ## Theorems -/

theorem Ptr.valid_lt_valid [LinearOrder β] {a b : β} :
    (Ptr.valid a : Ptr β) < .valid b ↔ a < b := by
  show (Ptr.up (.valid a) < Ptr.up (.valid b)) ↔ a < b
  exact WithBot.coe_lt_coe

theorem Ptr.compare_valid_valid [LinearOrder β] (a b : β) :
    compare (Ptr.valid a : Ptr β) (.valid b) = compare a b := by
  rcases lt_trichotomy a b with h | h | h
  · rw [compare_lt_iff_lt.mpr h, compare_lt_iff_lt.mpr (Ptr.valid_lt_valid.mpr h)]
  · subst h; rw [compare_eq_iff_eq.mpr rfl, compare_eq_iff_eq.mpr rfl]
  · rw [compare_gt_iff_gt.mpr h, compare_gt_iff_gt.mpr (Ptr.valid_lt_valid.mpr h)]

theorem Balanced.blackHeight {t : Tree α} {c : Color} {n : Nat}
    (h : Balanced t c n) : BlackHeight t n := by
  induction h with
  | nil => exact .nil
  | red _ _ ihl ihr => exact .red ihl ihr
  | black _ _ ihl ihr => exact .black ihl ihr

theorem Balanced.root_black {t : Tree α} {n : Nat}
    (h : Balanced t .black n) : rootBlack t := by
  cases h <;> trivial

theorem Balanced.no_red_red {t : Tree α} {c : Color} {n : Nat}
    (h : Balanced t c n) : noRedRed t := by
  induction h with
  | nil => trivial
  | red hl hr ihl ihr =>
    show (_ → _ ∧ _) ∧ _ ∧ _
    exact ⟨fun _ => ⟨hl.root_black, hr.root_black⟩, ihl, ihr⟩
  | black hl hr ihl ihr =>
    show (_ → _ ∧ _) ∧ _ ∧ _
    exact ⟨fun h => absurd h (by simp), ihl, ihr⟩

theorem balanced_assemble_red {s : Step α} {t : Tree α} {n : Nat}
    (hs : s.color = .red) (ht : Balanced t .black n)
    (hsib : Balanced s.sibling .black n) : Balanced (assemble s t) .red n := by
  obtain ⟨d, c, x, sib⟩ := s
  cases hs
  cases d
  · exact .red ht hsib
  · exact .red hsib ht

theorem balanced_assemble_black {s : Step α} {t : Tree α} {n : Nat} {c cs : Color}
    (hs : s.color = .black) (ht : Balanced t c n)
    (hsib : Balanced s.sibling cs n) : Balanced (assemble s t) .black (n + 1) := by
  obtain ⟨d, sc, x, sib⟩ := s
  cases hs
  cases d
  · exact .black ht hsib
  · exact .black hsib ht

theorem PathBal.fill {c₀ : Color} {n₀ : Nat} {path : List (Step α)} {c : Color}
    {n : Nat} {t : Tree α} (hp : PathBal c₀ n₀ path c n) (ht : Balanced t c n) :
    Balanced (rebuild path t) c₀ n₀ := by
  induction hp generalizing t with
  | root => exact ht
  | redStep hs hsib _ ih => exact ih (balanced_assemble_red hs ht hsib)
  | blackStep hs hsib _ ih => exact ih (balanced_assemble_black hs ht hsib)

/-! ## In-order lists of contexts -/

theorem toList_assemble_left {s : Step α} (h : s.dir = .left) (t : Tree α) :
    (assemble s t).toList = t.toList ++ s.data :: s.sibling.toList := by
  obtain ⟨d, c, x, sib⟩ := s
  cases h
  simp [assemble, Tree.toList]

theorem toList_assemble_right {s : Step α} (h : s.dir = .right) (t : Tree α) :
    (assemble s t).toList = s.sibling.toList ++ s.data :: t.toList := by
  obtain ⟨d, c, x, sib⟩ := s
  cases h
  simp [assemble, Tree.toList]

theorem toList_rebuild (p : List (Step α)) (t : Tree α) :
    (rebuild p t).toList = leftList p ++ t.toList ++ rightList p := by
  induction p generalizing t with
  | nil => simp [rebuild, leftList, rightList]
  | cons s p ih =>
    obtain ⟨d, c, x, sib⟩ := s
    cases d <;>
      simp [rebuild, ih, assemble, Tree.toList, leftList, rightList, List.append_assoc]

theorem sublist_middle (A B C : List α) : List.Sublist B (A ++ B ++ C) := by
  rw [List.append_assoc]
  exact (List.sublist_append_left B C).trans (List.sublist_append_right A _)

section SortedCtx

variable [LinearOrder α]

theorem sorted_of_rebuild {p : List (Step α)} {t : Tree α}
    (h : ((rebuild p t).toList).Sorted (· < ·)) : (t.toList).Sorted (· < ·) := by
  rw [toList_rebuild] at h
  exact h.sublist (sublist_middle _ _ _)

/-- Under sortedness of the surrounding tree, the comparator-driven
`isRightChild` test agrees with the structural side recorded in the zipper. -/
theorem isRightChild_agree {s : Step α} {cn : Color} {l r : Tree α} {x : α}
    (hs : ((assemble s (.node cn l x r)).toList).Sorted (· < ·)) :
    isRightChild x (some s) = 1 ↔ s.dir = .right := by
  obtain ⟨d, c, sd, sib⟩ := s
  cases d with
  | right => simp [isRightChild, compare_eq_iff_eq.mpr rfl]
  | left =>
    rw [toList_assemble_left rfl] at hs
    cases sib with
    | nil => simp [isRightChild]
    | node sc sl sx sr =>
      have hmem : ∀ a ∈ (Tree.node cn l x r).toList,
          ∀ b ∈ (sd :: (Tree.node sc sl sx sr).toList), a < b :=
        (List.pairwise_append.mp hs).2.2
      have hx : x < sx := by
        refine hmem x ?_ sx ?_
        · simp [Tree.toList]
        · simp [Tree.toList]
      have : compare sx x ≠ .eq := by
        intro h
        exact hx.ne (compare_eq_iff_eq.mp h).symm
      simp [isRightChild, this]

end SortedCtx

theorem setBlack_toList (t : Tree α) : t.setBlack.toList = t.toList := by
  cases t <;> rfl

theorem toList_node (c : Color) (l : Tree α) (d : α) (r : Tree α) :
    (Tree.node c l d r).toList = l.toList ++ d :: r.toList := rfl

theorem assemble_shape (s : Step α) (t : Tree α) :
    ∃ l r, assemble s t = .node s.color l s.data r := by
  obtain ⟨d, c, x, sib⟩ := s
  cases d
  · exact ⟨_, _, rfl⟩
  · exact ⟨_, _, rfl⟩

section FixupProof

variable [LinearOrder α]

theorem isRightChild_val (x : α) (s : Step α) :
    isRightChild x (some s) = 1 ∨ isRightChild x (some s) = -1 := by
  obtain ⟨d, c, sd, sib⟩ := s
  cases d with
  | left =>
    cases sib with
    | nil => exact .inr rfl
    | node sc sl sx sr =>
      by_cases h : compare sx x = .eq
      · exact .inl (by simp [isRightChild, h])
      · exact .inr (by simp [isRightChild, h])
  | right =>
    by_cases h : compare x x = .eq
    · exact .inl (by simp [isRightChild, h])
    · exact .inr (by simp [isRightChild, h])

/-- Version of `isRightChild_agree` for a subtree given by its root datum. -/
theorem isRightChild_agree2 {s : Step α} {u : Tree α} {x : α}
    (hu : ∃ cu lu ru, u = Tree.node cu lu x ru)
    (hs : ((assemble s u).toList).Sorted (· < ·)) :
    isRightChild x (some s) = 1 ↔ s.dir = .right := by
  obtain ⟨cu, lu, ru, rfl⟩ := hu
  exact isRightChild_agree hs

theorem findUncle_eq {pdata : α} {P : Tree α} {g : Step α}
    (hiff : isRightChild pdata (some g) = 1 ↔ g.dir = .right) :
    findUncle pdata P g = g.sibling := by
  unfold findUncle
  cases hgd : g.dir with
  | right =>
    rw [if_pos (hiff.mpr hgd)]
    simp [gChildL, hgd]
  | left =>
    rcases isRightChild_val pdata g with h | h
    · exact absurd (hiff.mp h) (by simp [hgd])
    · rw [if_neg (by simp [h])]
      simp [gChildR, hgd]

/-- Correctness of `modifyRedBlack` in the red-parent/black-uncle state:
given the sortedness of the surrounding tree and the balance of all the
pieces, the rotation succeeds, restores balance at black-height `n + 1`, and
preserves the in-order element list of the grandparent subtree. -/
theorem modifyRedBlack_spec {t : Tree α} {p g : Step α} {rest : List (Step α)} {n : Nat}
    (hsort : ((rebuild rest (assemble g (assemble p t))).toList).Sorted (· < ·))
    (ht : Balanced t .red n)
    (hp : p.color = .red)
    (hpsib : Balanced p.sibling .black n)
    (hgsib : Balanced g.sibling .black n) :
    ∃ R, modifyRedBlack t p g rest = some R ∧ Balanced R .black (n + 1) ∧
      R.toList = (assemble g (assemble p t)).toList := by
  have hsort1 : ((assemble g (assemble p t)).toList).Sorted (· < ·) :=
    sorted_of_rebuild hsort
  have hsort2 : ((assemble p t).toList).Sorted (· < ·) :=
    sorted_of_rebuild (p := [g])
      (by simpa [rebuild] using hsort1)
  have hpCT : isRightChild p.data (some g) = 1 ↔ g.dir = .right := by
    obtain ⟨l₀, r₀, he⟩ := assemble_shape p t
    exact isRightChild_agree2 ⟨p.color, l₀, r₀, he⟩ hsort1
  have hreat : reattachOk g.data rest = true := by
    cases rest with
    | nil => rfl
    | cons gg rest3 =>
      have hsub : ((assemble gg (assemble g (assemble p t))).toList).Sorted (· < ·) :=
        sorted_of_rebuild (p := rest3)
          (by simpa [rebuild] using hsort)
      obtain ⟨l₁, r₁, he⟩ := assemble_shape g (assemble p t)
      exact decide_eq_true (isRightChild_agree2 ⟨g.color, l₁, r₁, he⟩ hsub)
  cases ht with
  | red hnl hnr =>
  rename_i nl nx nr
  have hnCT : isRightChild nx (some p) = 1 ↔ p.dir = .right :=
    isRightChild_agree hsort2
  cases hgd : g.dir with
  | right =>
    have hg1 : isRightChild p.data (some g) = 1 := hpCT.mpr hgd
    cases hpd : p.dir with
    | right =>
      have hn1 : isRightChild nx (some p) = 1 := hnCT.mpr hpd
      refine ⟨.node .black (.node .red g.sibling g.data p.sibling) p.data
          (.node .red nl nx nr), ?_, ?_, ?_⟩
      · simp [modifyRedBlack, hreat, hg1, hn1, hgd, hpd]
      · exact .black (.red hgsib hpsib) (.red hnl hnr)
      · rw [toList_assemble_right hgd, toList_assemble_right hpd]
        simp [Tree.toList, List.append_assoc]
    | left =>
      have hn1 : isRightChild nx (some p) = -1 := by
        rcases isRightChild_val nx p with h | h
        · exact absurd (hnCT.mp h) (by simp [hpd])
        · exact h
      refine ⟨.node .black (.node .red g.sibling g.data nl) nx
          (.node p.color nr p.data p.sibling), ?_, ?_, ?_⟩
      · simp [modifyRedBlack, hreat, hg1, hn1, hgd, hpd]
      · rw [hp]
        exact .black (.red hgsib hnl) (.red hnr hpsib)
      · rw [toList_assemble_right hgd, toList_assemble_left hpd]
        simp [Tree.toList, List.append_assoc]
  | left =>
    have hg1 : isRightChild p.data (some g) = -1 := by
      rcases isRightChild_val p.data g with h | h
      · exact absurd (hpCT.mp h) (by simp [hgd])
      · exact h
    cases hpd : p.dir with
    | left =>
      have hn1 : isRightChild nx (some p) = -1 := by
        rcases isRightChild_val nx p with h | h
        · exact absurd (hnCT.mp h) (by simp [hpd])
        · exact h
      refine ⟨.node .black (.node .red nl nx nr) p.data
          (.node .red p.sibling g.data g.sibling), ?_, ?_, ?_⟩
      · simp [modifyRedBlack, hreat, hg1, hn1, hgd, hpd]
      · exact .black (.red hnl hnr) (.red hpsib hgsib)
      · rw [toList_assemble_left hgd, toList_assemble_left hpd]
        simp [Tree.toList, List.append_assoc]
    | right =>
      have hn1 : isRightChild nx (some p) = 1 := hnCT.mpr hpd
      refine ⟨.node .black (.node p.color p.sibling p.data nl) nx
          (.node .red nr g.data g.sibling), ?_, ?_, ?_⟩
      · simp [modifyRedBlack, hreat, hg1, hn1, hgd, hpd]
      · rw [hp]
        exact .black (.red hpsib hnl) (.red hnr hgsib)
      · rw [toList_assemble_left hgd, toList_assemble_right hpd]
        simp [Tree.toList, List.append_assoc]

omit [LinearOrder α] in
theorem Balanced.red_inv {t : Tree α} {n : Nat} (h : Balanced t .red n) :
    ∃ l x r, t = Tree.node .red l x r ∧ Balanced l .black n ∧ Balanced r .black n := by
  cases h with
  | red hl hr => exact ⟨_, _, _, rfl, hl, hr⟩

omit [LinearOrder α] in
theorem balanced_setBlack_assemble {s : Step α} {t : Tree α} {n : Nat} {ct cs : Color}
    (ht : Balanced t ct n) (hsib : Balanced s.sibling cs n) :
    Balanced (assemble s t).setBlack .black (n + 1) := by
  obtain ⟨d, c, x, sib⟩ := s
  cases d
  · exact .black ht hsib
  · exact .black hsib ht

/-- Correctness and totality of the fixup `modifyNode` in its invariant
state: the subtree at the current node is a balanced red-rooted tree, the
path is a balanced context of a tree with a black root, and the whole tree is
sorted.  Fixup then succeeds, yields a balanced black-rooted tree, and
preserves the in-order element list. -/
theorem modifyNode_spec_aux (k : Nat) :
    ∀ {path : List (Step α)} {t : Tree α} {c : Color} {n n₀ : Nat},
    path.length ≤ k →
    Balanced t .red n → PathBal .black n₀ path c n →
    ((rebuild path t).toList).Sorted (· < ·) →
    ∃ W n', modifyNode t path = some W ∧ Balanced W .black n' ∧
      W.toList = (rebuild path t).toList := by
  induction k with
  | zero =>
    intro path t c n n₀ hlen ht hpB hsort
    obtain ⟨nl, nx, nr, rfl, hnl, hnr⟩ := ht.red_inv
    cases path with
    | nil => exact ⟨_, n + 1, rfl, .black hnl hnr, rfl⟩
    | cons p rest => exact absurd hlen (Nat.not_succ_le_zero _)
  | succ k ih =>
    intro path t c n n₀ hlen ht hpB hsort
    obtain ⟨nl, nx, nr, rfl, hnl, hnr⟩ := ht.red_inv
    cases path with
    | nil => exact ⟨_, n + 1, rfl, .black hnl hnr, rfl⟩
    | cons p rest =>
      cases hpB with
      | blackStep hpc hpsib hrest =>
        refine ⟨rebuild rest (assemble p (.node .red nl nx nr)), n₀, ?_, ?_, rfl⟩
        · rw [modifyNode.eq_def]; simp [hpc]
        · exact hrest.fill (balanced_assemble_black hpc (.red hnl hnr) hpsib)
      | redStep hpc hpsib hrest =>
        cases rest with
        | nil => cases hrest
        | cons g rest2 =>
          cases hrest with
          | blackStep hgc hgsib hrest2 =>
            rename_i cs
            have hsort' : ((rebuild rest2 (assemble g (assemble p
                (Tree.node .red nl nx nr)))).toList).Sorted (· < ·) := by
              simpa [rebuild] using hsort
            have hsort1 : ((assemble g (assemble p
                (Tree.node .red nl nx nr))).toList).Sorted (· < ·) :=
              sorted_of_rebuild hsort'
            have hpCT : isRightChild p.data (some g) = 1 ↔ g.dir = .right := by
              obtain ⟨l₀, r₀, he⟩ := assemble_shape p (Tree.node .red nl nx nr)
              exact isRightChild_agree2 ⟨p.color, l₀, r₀, he⟩ hsort1
            have hfu : findUncle p.data (assemble p (Tree.node .red nl nx nr)) g
                = g.sibling := findUncle_eq hpCT
            have hlen2 : rest2.length ≤ k := by
              simp at hlen; omega
            cases hsib : g.sibling with
            | nil =>
              rw [hsib] at hgsib
              cases hgsib
              obtain ⟨R, hR, hRbal, hRlist⟩ :=
                modifyRedBlack_spec hsort' (.red hnl hnr) hpc hpsib
                  (by rw [hsib]; exact .nil)
              have hred : modifyNode (Tree.node .red nl nx nr) (p :: g :: rest2) =
                  (modifyRedBlack (Tree.node .red nl nx nr) p g rest2).map
                    (rebuild rest2) := by
                rw [modifyNode.eq_def]; simp [hpc, hfu, hsib]
              refine ⟨rebuild rest2 R, n₀, ?_, hrest2.fill hRbal, ?_⟩
              · rw [hred, hR]; rfl
              · show (rebuild rest2 R).toList = (rebuild rest2 (assemble g
                  (assemble p (Tree.node .red nl nx nr)))).toList
                rw [toList_rebuild, toList_rebuild, hRlist]
            | node sc sl sx sr =>
              cases sc with
              | black =>
                rw [hsib] at hgsib
                have hgsib2 : Balanced g.sibling .black n := by
                  rw [hsib]
                  cases hgsib with
                  | black h1 h2 => exact .black h1 h2
                obtain ⟨R, hR, hRbal, hRlist⟩ :=
                  modifyRedBlack_spec hsort' (.red hnl hnr) hpc hpsib hgsib2
                have hred : modifyNode (Tree.node .red nl nx nr) (p :: g :: rest2) =
                    (modifyRedBlack (Tree.node .red nl nx nr) p g rest2).map
                      (rebuild rest2) := by
                  rw [modifyNode.eq_def]; simp [hpc, hfu, hsib]
                refine ⟨rebuild rest2 R, n₀, ?_, hrest2.fill hRbal, ?_⟩
                · rw [hred, hR]; rfl
                · show (rebuild rest2 R).toList = (rebuild rest2 (assemble g
                    (assemble p (Tree.node .red nl nx nr)))).toList
                  rw [toList_rebuild, toList_rebuild, hRlist]
              | red =>
                rw [hsib] at hgsib
                obtain ⟨hsl, hsr⟩ : Balanced sl .black n ∧ Balanced sr .black n := by
                  cases hgsib with
                  | red h1 h2 => exact ⟨h1, h2⟩
                have hPb : Balanced (assemble p
                    (Tree.node .red nl nx nr)).setBlack .black (n + 1) :=
                  balanced_setBlack_assemble (.red hnl hnr) hpsib
                have hUb : Balanced (Tree.node .black sl sx sr) .black (n + 1) :=
                  .black hsl hsr
                have hred : modifyNode (Tree.node .red nl nx nr) (p :: g :: rest2) =
                    modifyNode (recolorG p.data
                      (assemble p (Tree.node .red nl nx nr)) g) rest2 := by
                  rw [modifyNode.eq_def]; simp [hpc, hfu, hsib]
                cases hgd : g.dir with
                | right =>
                  have hval : isRightChild p.data (some g) = 1 := hpCT.mpr hgd
                  have hrg : recolorG p.data
                      (assemble p (Tree.node .red nl nx nr)) g =
                      Tree.node .red (Tree.node .black sl sx sr) g.data
                        (assemble p (Tree.node .red nl nx nr)).setBlack := by
                    simp [recolorG, hval, hgd, hsib, Tree.setBlack]
                  have hnewG : Balanced (Tree.node .red (Tree.node .black sl sx sr)
                      g.data (assemble p (Tree.node .red nl nx nr)).setBlack)
                      .red (n + 1) := .red hUb hPb
                  have hlist : (Tree.node .red (Tree.node .black sl sx sr) g.data
                      (assemble p (Tree.node .red nl nx nr)).setBlack).toList =
                      (assemble g (assemble p (Tree.node .red nl nx nr))).toList := by
                    rw [toList_assemble_right hgd, hsib]
                    simp [Tree.toList, setBlack_toList]
                  have hsort2 : ((rebuild rest2 (Tree.node .red
                      (Tree.node .black sl sx sr) g.data
                      (assemble p (Tree.node .red nl nx nr)).setBlack)).toList).Sorted
                      (· < ·) := by
                    rw [toList_rebuild, hlist]
                    rw [toList_rebuild] at hsort'
                    exact hsort'
                  obtain ⟨W, m, hW, hWbal, hWlist⟩ := ih hlen2 hnewG hrest2 hsort2
                  refine ⟨W, m, ?_, hWbal, ?_⟩
                  · rw [hred, hrg, hW]
                  · show W.toList = (rebuild rest2 (assemble g
                      (assemble p (Tree.node .red nl nx nr)))).toList
                    rw [hWlist, toList_rebuild, toList_rebuild, hlist]
                | left =>
                  have hval : isRightChild p.data (some g) = -1 := by
                    rcases isRightChild_val p.data g with h | h
                    · exact absurd (hpCT.mp h) (by simp [hgd])
                    · exact h
                  have hrg : recolorG p.data
                      (assemble p (Tree.node .red nl nx nr)) g =
                      Tree.node .red (assemble p
                        (Tree.node .red nl nx nr)).setBlack g.data
                        (Tree.node .black sl sx sr) := by
                    simp [recolorG, hval, hgd, hsib, Tree.setBlack]
                  have hnewG : Balanced (Tree.node .red (assemble p
                      (Tree.node .red nl nx nr)).setBlack g.data
                      (Tree.node .black sl sx sr)) .red (n + 1) := .red hPb hUb
                  have hlist : (Tree.node .red (assemble p
                      (Tree.node .red nl nx nr)).setBlack g.data
                      (Tree.node .black sl sx sr)).toList =
                      (assemble g (assemble p (Tree.node .red nl nx nr))).toList := by
                    rw [toList_assemble_left hgd, hsib]
                    simp [Tree.toList, setBlack_toList]
                  have hsort2 : ((rebuild rest2 (Tree.node .red (assemble p
                      (Tree.node .red nl nx nr)).setBlack g.data
                      (Tree.node .black sl sx sr))).toList).Sorted (· < ·) := by
                    rw [toList_rebuild, hlist]
                    rw [toList_rebuild] at hsort'
                    exact hsort'
                  obtain ⟨W, m, hW, hWbal, hWlist⟩ := ih hlen2 hnewG hrest2 hsort2
                  refine ⟨W, m, ?_, hWbal, ?_⟩
                  · rw [hred, hrg, hW]
                  · show W.toList = (rebuild rest2 (assemble g
                      (assemble p (Tree.node .red nl nx nr)))).toList
                    rw [hWlist, toList_rebuild, toList_rebuild, hlist]

end FixupProof

theorem rebuild_append (q p : List (Step α)) (t : Tree α) :
    rebuild (q ++ p) t = rebuild p (rebuild q t) := by
  induction q generalizing t with
  | nil => rfl
  | cons s q ih => simp [rebuild, ih]

theorem Balanced.unique {t : Tree α} {c₁ c₂ : Color} {n₁ n₂ : Nat}
    (h₁ : Balanced t c₁ n₁) (h₂ : Balanced t c₂ n₂) : c₁ = c₂ ∧ n₁ = n₂ := by
  induction h₁ generalizing c₂ n₂ with
  | nil => cases h₂; exact ⟨rfl, rfl⟩
  | red hl hr ihl ihr =>
    cases h₂ with
    | red hl₂ hr₂ => exact ⟨rfl, (ihl hl₂).2⟩
  | black hl hr ihl ihr =>
    cases h₂ with
    | black hl₂ hr₂ => exact ⟨rfl, by rw [(ihl hl₂).2]⟩

theorem Balanced.left_bal {c co : Color} {l r : Tree α} {d : α} {n : Nat}
    (h : Balanced (Tree.node c l d r) co n) : ∃ cl m, Balanced l cl m := by
  cases h with
  | red hl hr => exact ⟨_, _, hl⟩
  | black hl hr => exact ⟨_, _, hl⟩

theorem Balanced.right_bal {c co : Color} {l r : Tree α} {d : α} {n : Nat}
    (h : Balanced (Tree.node c l d r) co n) : ∃ cr m, Balanced r cr m := by
  cases h with
  | red hl hr => exact ⟨_, _, hr⟩
  | black hl hr => exact ⟨_, _, hr⟩

theorem PathBal.append {c₀ cm ch : Color} {n₀ nm nh : Nat} {q p : List (Step α)}
    (hq : PathBal c₀ n₀ q cm nm) (hp : PathBal cm nm p ch nh) :
    PathBal c₀ n₀ (p ++ q) ch nh := by
  induction hp with
  | root => exact hq
  | redStep hs hsib _ ih => exact .redStep hs hsib ih
  | blackStep hs hsib _ ih => exact .blackStep hs hsib ih

/-- The one-step context around the left-child slot of a node. -/
theorem pathBal_single_left {c co cl : Color} {l r : Tree α} {d : α} {n nl : Nat}
    (h : Balanced (Tree.node c l d r) co n) (hl : Balanced l cl nl) :
    PathBal co n [⟨.left, c, d, r⟩] cl nl := by
  cases h with
  | red hl₂ hr₂ =>
    obtain ⟨rfl, rfl⟩ := hl.unique hl₂
    exact .redStep rfl hr₂ .root
  | black hl₂ hr₂ =>
    obtain ⟨rfl, rfl⟩ := hl.unique hl₂
    exact .blackStep rfl hr₂ .root

/-- The one-step context around the right-child slot of a node. -/
theorem pathBal_single_right {c co cr : Color} {l r : Tree α} {d : α} {n nr : Nat}
    (h : Balanced (Tree.node c l d r) co n) (hr : Balanced r cr nr) :
    PathBal co n [⟨.right, c, d, l⟩] cr nr := by
  cases h with
  | red hl₂ hr₂ =>
    obtain ⟨rfl, rfl⟩ := hr.unique hr₂
    exact .redStep rfl hl₂ .root
  | black hl₂ hr₂ =>
    obtain ⟨rfl, rfl⟩ := hr.unique hr₂
    exact .blackStep rfl hl₂ .root

section DescentProof

variable [LinearOrder α]

/-- Unfolding equation of `addNewNode` at a node. -/
theorem addNewNode_node (x d : α) (c : Color) (l r : Tree α) :
    addNewNode x (Tree.node c l d r) =
      (match compare x d with
      | .eq => none
      | .lt =>
        match l with
        | .nil => some [⟨.left, c, d, r⟩]
        | l => (addNewNode x l).map (· ++ [⟨.left, c, d, r⟩])
      | .gt =>
        match r with
        | .nil => some [⟨.right, c, d, l⟩]
        | r => (addNewNode x r).map (· ++ [⟨.right, c, d, l⟩])) := by
  cases hcmp : compare x d <;> cases l <;> cases r <;> simp [addNewNode, hcmp]

/-- The BST descent produces a balanced context around the empty slot it
attaches the new node to. -/
theorem addNewNode_pathBal {t : Tree α} {x : α} {path : List (Step α)}
    {c₀ : Color} {n₀ : Nat}
    (hb : Balanced t c₀ n₀) (h : addNewNode x t = some path) :
    ∃ c, PathBal c₀ n₀ path c 0 := by
  induction t generalizing path c₀ n₀ with
  | nil => simp [addNewNode] at h
  | node c l d r ihl ihr =>
    rw [addNewNode_node] at h
    cases hcmp : compare x d with
    | eq => rw [hcmp] at h; simp at h
    | lt =>
      rw [hcmp] at h
      cases l with
      | nil =>
        simp only [Option.some.injEq] at h
        subst h
        exact ⟨_, pathBal_single_left hb .nil⟩
      | node lc ll ld lr =>
        rw [Option.map_eq_some'] at h
        obtain ⟨path1, h1, rfl⟩ := h
        obtain ⟨cl, m, hbl⟩ := hb.left_bal
        obtain ⟨c2, h2⟩ := ihl hbl h1
        exact ⟨c2, (pathBal_single_left hb hbl).append h2⟩
    | gt =>
      rw [hcmp] at h
      cases r with
      | nil =>
        simp only [Option.some.injEq] at h
        subst h
        exact ⟨_, pathBal_single_right hb .nil⟩
      | node rc rl rd rr =>
        rw [Option.map_eq_some'] at h
        obtain ⟨path1, h1, rfl⟩ := h
        obtain ⟨cr, m, hbr⟩ := hb.right_bal
        obtain ⟨c2, h2⟩ := ihr hbr h1
        exact ⟨c2, (pathBal_single_right hb hbr).append h2⟩

/-- The BST descent splits the in-order list at the insertion point. -/
theorem addNewNode_toList {t : Tree α} {x : α} {path : List (Step α)}
    (hs : (t.toList).Sorted (· < ·)) (h : addNewNode x t = some path) :
    ∃ l₁ l₂, t.toList = l₁ ++ l₂ ∧
      (rebuild path (makeNewNode x)).toList = l₁ ++ x :: l₂ ∧
      (∀ a ∈ l₁, a < x) ∧ (∀ a ∈ l₂, x < a) := by
  induction t generalizing path with
  | nil => simp [addNewNode] at h
  | node c l d r ihl ihr =>
    rw [addNewNode_node] at h
    have hparts := List.pairwise_append.mp (show ((l.toList ++ d :: r.toList)).Pairwise (· < ·) from hs)
    have hld : ∀ a ∈ l.toList, a < d := fun a ha => hparts.2.2 a ha d (by simp)
    have hdr : ∀ a ∈ r.toList, d < a := fun a ha => (List.pairwise_cons.mp hparts.2.1).1 a ha
    cases hcmp : compare x d with
    | eq => rw [hcmp] at h; simp at h
    | lt =>
      rw [hcmp] at h
      have hxd : x < d := compare_lt_iff_lt.mp hcmp
      cases l with
      | nil =>
        simp only [Option.some.injEq] at h
        subst h
        refine ⟨[], d :: r.toList, rfl, ?_, by simp, ?_⟩
        · simp [rebuild, assemble, makeNewNode, Tree.toList]
        · intro a ha
          rcases List.mem_cons.mp ha with rfl | ha
          · exact hxd
          · exact hxd.trans (hdr a ha)
      | node lc ll ld lr =>
        rw [Option.map_eq_some'] at h
        obtain ⟨path1, h1, rfl⟩ := h
        obtain ⟨l₁, l₂, hsplit, hlist, hlo, hhi⟩ := ihl hparts.1 h1
        refine ⟨l₁, l₂ ++ d :: r.toList, ?_, ?_, hlo, ?_⟩
        · rw [toList_node, hsplit]
          simp [List.append_assoc]
        · rw [rebuild_append]
          simp only [rebuild]
          rw [toList_assemble_left rfl, hlist]
          simp [List.append_assoc]
        · intro a ha
          rcases List.mem_append.mp ha with ha | ha
          · exact hhi a ha
          · rcases List.mem_cons.mp ha with rfl | ha
            · exact hxd
            · exact hxd.trans (hdr a ha)
    | gt =>
      rw [hcmp] at h
      have hdx : d < x := compare_gt_iff_gt.mp hcmp
      cases r with
      | nil =>
        simp only [Option.some.injEq] at h
        subst h
        refine ⟨l.toList ++ [d], [], by simp [Tree.toList], ?_, ?_, by simp⟩
        · simp [rebuild, assemble, makeNewNode, Tree.toList]
        · intro a ha
          rcases List.mem_append.mp ha with ha | ha
          · exact (hld a ha).trans hdx
          · rcases List.mem_singleton.mp ha with rfl
            exact hdx
      | node rc rl rd rr =>
        rw [Option.map_eq_some'] at h
        obtain ⟨path1, h1, rfl⟩ := h
        obtain ⟨l₁, l₂, hsplit, hlist, hlo, hhi⟩ :=
          ihr (List.pairwise_cons.mp hparts.2.1).2 h1
        refine ⟨l.toList ++ d :: l₁, l₂, ?_, ?_, ?_, hhi⟩
        · rw [toList_node, hsplit]
          simp [List.append_assoc]
        · rw [rebuild_append]
          simp only [rebuild]
          rw [toList_assemble_right rfl, hlist]
          simp [List.append_assoc]
        · intro a ha
          rcases List.mem_append.mp ha with ha | ha
          · exact (hld a ha).trans hdx
          · rcases List.mem_cons.mp ha with rfl | ha
            · exact hdx
            · exact hlo a ha

/-- Duplicate detection of the descent: on a sorted non-empty tree it reports
`FAILURE` exactly when an equal element is stored. -/
theorem addNewNode_none_iff {t : Tree α} {x : α}
    (hs : (t.toList).Sorted (· < ·)) (hne : t ≠ .nil) :
    (addNewNode x t = none ↔ x ∈ t.toList) := by
  induction t with
  | nil => exact absurd rfl hne
  | node c l d r ihl ihr =>
    rw [addNewNode_node]
    have hparts := List.pairwise_append.mp
      (show ((l.toList ++ d :: r.toList)).Pairwise (· < ·) from hs)
    have hld : ∀ a ∈ l.toList, a < d := fun a ha => hparts.2.2 a ha d (by simp)
    have hdr : ∀ a ∈ r.toList, d < a := fun a ha => (List.pairwise_cons.mp hparts.2.1).1 a ha
    cases hcmp : compare x d with
    | eq =>
      have hxd : x = d := compare_eq_iff_eq.mp hcmp
      subst hxd
      simp [Tree.toList]
    | lt =>
      have hxd : x < d := compare_lt_iff_lt.mp hcmp
      have hnotr : x ∉ d :: r.toList := by
        intro hmem
        rcases List.mem_cons.mp hmem with rfl | hmem
        · exact absurd rfl hxd.ne
        · exact absurd rfl ((hxd.trans (hdr x hmem)).ne)
      cases l with
      | nil =>
        simp only [Tree.toList, List.nil_append]
        constructor
        · intro h; cases h
        · intro hmem; exact absurd hmem hnotr
      | node lc ll ld lr =>
        rw [Option.map_eq_none']
        rw [ihl hparts.1 (by simp)]
        simp only [Tree.toList, List.mem_append]
        constructor
        · exact fun h => .inl h
        · rintro (h | h)
          · exact h
          · exact absurd h hnotr
    | gt =>
      have hdx : d < x := compare_gt_iff_gt.mp hcmp
      have hnotl : x ∉ l.toList := fun hmem => absurd rfl ((hld x hmem).trans hdx).ne
      cases r with
      | nil =>
        simp only [Tree.toList]
        constructor
        · intro h; cases h
        · intro hmem
          rcases List.mem_append.mp hmem with h | h
          · exact absurd h hnotl
          · rcases List.mem_cons.mp h with rfl | h
            · exact absurd rfl hdx.ne
            · cases h
      | node rc rl rd rr =>
        rw [Option.map_eq_none']
        rw [ihr (List.pairwise_cons.mp hparts.2.1).2 (by simp)]
        simp only [Tree.toList, List.mem_append, List.mem_cons]
        constructor
        · exact fun h => .inr (.inr h)
        · rintro (h | h | h)
          · exact absurd h hnotl
          · exact absurd h.symm hdx.ne
          · exact h

theorem sorted_insert_mid {l₁ l₂ : List α} {x : α}
    (hs : ((l₁ ++ l₂)).Sorted (· < ·)) (h₁ : ∀ a ∈ l₁, a < x)
    (h₂ : ∀ a ∈ l₂, x < a) : ((l₁ ++ x :: l₂)).Sorted (· < ·) := by
  have h := List.pairwise_append.mp (show (l₁ ++ l₂).Pairwise (· < ·) from hs)
  refine List.pairwise_append.mpr ⟨h.1, List.pairwise_cons.mpr ⟨h₂, h.2.1⟩, ?_⟩
  intro a ha b hb
  rcases List.mem_cons.mp hb with rfl | hb
  · exact h₁ a ha
  · exact h.2.2 a ha b hb

end DescentProof

section InsertSpec

variable [LinearOrder α]

/-- Master specification of `addToRBTree` on a tree satisfying the invariant:
a stored equal element makes it fail with the tree unchanged; otherwise it
succeeds, preserves the invariant, increments the count, and splices the new
element into the in-order list at its sorted position. -/
theorem addToRBTree_spec {t : RBTree α} {x : α} (h : RBInv t) :
    (x ∈ t.root.toList → addToRBTree t x = some (false, t)) ∧
    (x ∉ t.root.toList →
      ∃ t', addToRBTree t x = some (true, t') ∧ RBInv t' ∧
        t'.size = t.size + 1 ∧
        ∃ l₁ l₂, t.root.toList = l₁ ++ l₂ ∧ t'.root.toList = l₁ ++ x :: l₂) := by
  obtain ⟨hsort, ⟨n, hbal⟩, hsize⟩ := h
  cases hroot : t.root with
  | nil =>
    constructor
    · intro hmem
      simp [Tree.toList] at hmem
    · intro _
      refine ⟨⟨.node .black .nil x .nil, t.size + 1⟩, ?_, ?_, rfl, [], [],
        by simp [Tree.toList], by simp [Tree.toList]⟩
      · unfold addToRBTree
        rw [hroot]
        rfl
      · refine ⟨by simp [Tree.toList], ⟨1, .black .nil .nil⟩, ?_⟩
        show t.size + 1 = (Tree.node .black .nil x .nil).toList.length
        rw [hsize, hroot]
        simp [Tree.toList]
  | node c l d r =>
    have hsort2 : ((Tree.node c l d r).toList).Sorted (· < ·) := hroot ▸ hsort
    constructor
    · intro hmem
      have hnone : addNewNode x (Tree.node c l d r) = none :=
        (addNewNode_none_iff hsort2 (by simp)).mpr hmem
      unfold addToRBTree
      rw [hroot]
      simp [hnone]
    · intro hx
      obtain ⟨path, hpath⟩ : ∃ path, addNewNode x (Tree.node c l d r) = some path := by
        rcases ho : addNewNode x (Tree.node c l d r) with _ | path
        · exact absurd ((addNewNode_none_iff hsort2 (by simp)).mp ho) hx
        · exact ⟨path, rfl⟩
      obtain ⟨c₁, hPB⟩ := addNewNode_pathBal (hroot ▸ hbal) hpath
      obtain ⟨l₁, l₂, hsplit, hlist, hlo, hhi⟩ := addNewNode_toList hsort2 hpath
      have hsorted2 : ((rebuild path (makeNewNode x)).toList).Sorted (· < ·) := by
        rw [hlist]
        exact sorted_insert_mid (hsplit ▸ hsort2) hlo hhi
      obtain ⟨W, m, hW, hWbal, hWlist⟩ := modifyNode_spec_aux path.length
        (le_refl _) (show Balanced (makeNewNode x) .red 0 from .red .nil .nil)
        hPB hsorted2
      refine ⟨⟨W, t.size + 1⟩, ?_, ?_, rfl, l₁, l₂, hsplit, ?_⟩
      · unfold addToRBTree
        rw [hroot]
        simp [hpath, hW]
      · refine ⟨?_, ⟨m, hWbal⟩, ?_⟩
        · show List.Sorted (· < ·) W.toList
          rw [hWlist]
          exact hsorted2
        · show t.size + 1 = W.toList.length
          rw [hWlist, hlist, hsize, hroot, hsplit]
          simp
          omega
      · show W.toList = l₁ ++ x :: l₂
        rw [hWlist, hlist]

theorem Built.inv {t : RBTree α} (h : Built t) : RBInv t := by
  induction h with
  | new => exact ⟨by simp [newRBTree, Tree.toList], ⟨0, .nil⟩, rfl⟩
  | ins hb hadd ih =>
    rename_i t x b t'
    by_cases hx : x ∈ t.root.toList
    · have := (addToRBTree_spec ih).1 hx
      rw [this] at hadd
      obtain ⟨rfl, rfl⟩ : b = false ∧ t = t' := by
        simpa using hadd
      exact ih
    · obtain ⟨t'', heq, hinv, _, _⟩ := (addToRBTree_spec ih).2 hx
      rw [heq] at hadd
      obtain ⟨rfl, rfl⟩ : b = true ∧ t'' = t' := by
        simpa using hadd
      exact hinv

/-- `addToRBTree` always completes on an invariant-satisfying tree (the
`NULL`-dereference cases of the model are unreachable). -/
theorem addToRBTree_total {t : RBTree α} {x : α} (h : RBInv t) :
    ∃ b t', addToRBTree t x = some (b, t') := by
  by_cases hx : x ∈ t.root.toList
  · exact ⟨false, t, (addToRBTree_spec h).1 hx⟩
  · obtain ⟨t', heq, _, _, _⟩ := (addToRBTree_spec h).2 hx
    exact ⟨true, t', heq⟩

end InsertSpec

section TraverseProof

variable {σ : Type}

theorem runVisitor_append (f : α → σ → Bool × σ) (A B : List α) (s : σ) :
    runVisitor f (A ++ B) s =
      (match runVisitor f A s with
      | (false, s1) => (false, s1)
      | (true, s1) => runVisitor f B s1) := by
  induction A generalizing s with
  | nil => simp [runVisitor]
  | cons a A ih =>
    show runVisitor f (a :: (A ++ B)) s = _
    rw [runVisitor]
    rcases hfa : f a s with ⟨b, s1⟩
    cases b
    · simp [runVisitor, hfa]
    · simp [runVisitor, hfa, ih]

/-- The in-order traversal of a non-empty tree runs the visitor over the
in-order element list, stopping at the first stop signal. -/
theorem forEachNode_runVisitor (f : α → σ → Bool × σ) :
    ∀ (t : Tree α), t ≠ .nil → ∀ s,
      forEachNode f t s = some (runVisitor f t.toList s) := by
  intro t
  induction t with
  | nil => intro h; exact absurd rfl h
  | node c l x r ihl ihr =>
    intro _ s
    cases l with
    | nil =>
      cases r with
      | nil =>
        rw [forEachNode]
        rcases hfx : f x s with ⟨b, s₂⟩
        cases b <;> simp [runVisitor, hfx, Tree.toList]
      | node rc rl rx rr =>
        have ihr2 := ihr (by simp)
        rw [forEachNode]
        rcases hfx : f x s with ⟨b, s₂⟩
        cases b
        · simp [runVisitor, hfx, Tree.toList]
        · simp [runVisitor, hfx, Tree.toList, ihr2 s₂]
    | node lc ll lx lr =>
      have ihl2 := ihl (by simp)
      cases r with
      | nil =>
        rw [forEachNode, ihl2 s]
        rw [show (Tree.node c (Tree.node lc ll lx lr) x Tree.nil).toList =
          (Tree.node lc ll lx lr).toList ++ x :: Tree.nil.toList from rfl]
        rw [runVisitor_append]
        rcases hL : runVisitor f (Tree.node lc ll lx lr).toList s with ⟨bl, s₁⟩
        cases bl
        · simp
        · rcases hfx : f x s₁ with ⟨b, s₂⟩
          cases b <;> simp [runVisitor, hfx, Tree.toList]
      | node rc rl rx rr =>
        have ihr2 := ihr (by simp)
        rw [forEachNode, ihl2 s]
        rw [show (Tree.node c (Tree.node lc ll lx lr) x
            (Tree.node rc rl rx rr)).toList =
          (Tree.node lc ll lx lr).toList ++ x :: (Tree.node rc rl rx rr).toList from rfl]
        rw [runVisitor_append]
        rcases hL : runVisitor f (Tree.node lc ll lx lr).toList s with ⟨bl, s₁⟩
        cases bl
        · simp
        · rcases hfx : f x s₁ with ⟨b, s₂⟩
          cases b <;> simp [runVisitor, hfx, ihr2]

/-- Behaviour of the counting early-stop visitor on any list long enough. -/
theorem runVisitor_stopAt {l : List α} {c k : Nat} (hc : c < k)
    (hk : k ≤ c + l.length) : runVisitor (stopAt k) l c = (false, k) := by
  induction l generalizing c with
  | nil => simp at hk; omega
  | cons a l ih =>
    rw [runVisitor]
    by_cases hck : c + 1 = k
    · simp [stopAt, hck]
    · have h1 : (stopAt k a c).1 = true := by simp [stopAt]; omega
      have h2 : (stopAt k a c).2 = c + 1 := rfl
      rcases hs : stopAt k a c with ⟨b, s1⟩
      rw [hs] at h1 h2
      subst h1 h2
      simp only []
      exact ih (by omega) (by simp at hk; omega)

end TraverseProof

section InsertAllProof

variable [LinearOrder α]

/-- `insertAll` from a reachable tree always completes, preserves
reachability, adds the number of successes to the count, and stores exactly
the new and old elements. -/
theorem insertAll_spec {t : RBTree α} (hB : Built t) (xs : List α) :
    ∃ t' k, insertAll t xs = some (t', k) ∧ Built t' ∧
      t'.size = t.size + k ∧
      (∀ z, z ∈ t'.root.toList ↔ z ∈ xs ∨ z ∈ t.root.toList) := by
  induction xs generalizing t with
  | nil => exact ⟨t, 0, rfl, hB, by simp, by simp⟩
  | cons x xs ih =>
    by_cases hx : x ∈ t.root.toList
    · have hdup := (addToRBTree_spec hB.inv).1 hx
      obtain ⟨t', k, hins, hB', hsz, hmem⟩ := ih hB
      refine ⟨t', k, ?_, hB', hsz, ?_⟩
      · rw [insertAll, hdup]
        simp [hins]
      · intro z
        rw [hmem z]
        constructor
        · rintro (h | h)
          · exact .inl (List.mem_cons_of_mem x h)
          · exact .inr h
        · rintro (h | h)
          · rcases List.mem_cons.mp h with rfl | h2
            · exact .inr hx
            · exact .inl h2
          · exact .inr h
    · obtain ⟨t2, heq, hinv2, hsz2, l₁, l₂, hsp1, hsp2⟩ := (addToRBTree_spec hB.inv).2 hx
      have hB2 : Built t2 := .ins hB heq
      obtain ⟨t', k, hins, hB', hsz, hmem⟩ := ih hB2
      refine ⟨t', 1 + k, ?_, hB', by omega, ?_⟩
      · rw [insertAll, heq]
        simp [hins]
      · intro z
        rw [hmem z]
        have hz2 : z ∈ t2.root.toList ↔ z = x ∨ z ∈ t.root.toList := by
          rw [hsp2, hsp1]
          simp [List.mem_append, List.mem_cons]
          tauto
        rw [hz2]
        simp [List.mem_cons]
        tauto

/-- A failing `addToRBTree` call returns the tree unchanged (the only failing
path frees the freshly allocated node and returns `FAILURE`). -/
theorem addToRBTree_false {t t' : RBTree α} {x : α}
    (h : addToRBTree t x = some (false, t')) : t' = t := by
  unfold addToRBTree at h
  cases hroot : t.root with
  | nil =>
    rw [hroot] at h
    simp at h
  | node c l d r =>
    rw [hroot] at h
    cases haddn : addNewNode x (Tree.node c l d r) with
    | none =>
      simp only [haddn] at h
      simp at h
      exact h.symm
    | some path =>
      simp only [haddn] at h
      cases hmod : modifyNode (makeNewNode x) path with
      | none => simp only [hmod] at h; simp at h
      | some W => simp only [hmod] at h; simp at h

/-- The instrumented insertion is the plain insertion together with the net
node allocation (one retained on success, none on failure) and a zero
destructor-invocation count. -/
theorem addToRBTreeAlloc_eq (t : RBTree α) (x : α) :
    addToRBTreeAlloc t x = (addToRBTree t x).map
      (fun r => (r.1, r.2, if r.1 then 1 else 0, 0)) := by
  unfold addToRBTreeAlloc addToRBTree
  cases t.root with
  | nil =>
    cases modifyNode (makeNewNode x) ([] : List (Step α)) <;> rfl
  | node c l d r =>
    cases haddn : addNewNode x (Tree.node c l d r) with
    | none => simp [haddn]
    | some path =>
      cases hmod : modifyNode (makeNewNode x) path with
      | none => simp [haddn, hmod]
      | some W => simp [haddn, hmod]

end InsertAllProof

section FuelProof

variable [LinearOrder α]

/-- The fueled fixup agrees with the fixup whenever the budget exceeds the
depth of the node, i.e. the recursion of `modifyNode` is bounded by the
length of the ancestor path. -/
theorem modifyNodeFuel_spec :
    ∀ (fuel : Nat) (t : Tree α) (path : List (Step α)), path.length < fuel →
    modifyNodeFuel fuel t path = some (modifyNode t path) := by
  intro fuel
  induction fuel with
  | zero => intro t path h; omega
  | succ f ih =>
    intro t path h
    cases t with
    | nil => cases path <;> rfl
    | node c l x r =>
      cases path with
      | nil => rfl
      | cons p rest =>
        rw [modifyNodeFuel.eq_def, modifyNode.eq_def]
        by_cases hpc : p.color = .black
        · simp [hpc]
        · simp only [hpc, if_neg, reduceIte]
          cases rest with
          | nil => rfl
          | cons g rest2 =>
            cases hu : findUncle p.data (assemble p (.node c l x r)) g with
            | nil => simp [hu]
            | node uc ul ux ur =>
              cases uc with
              | red =>
                simp only [hu]
                exact ih _ _ (by simp at h ⊢; omega)
              | black => simp [hu]

omit [LinearOrder α] in
/-- Rebuilding under a path adds at least the path length to the height. -/
theorem height_rebuild (path : List (Step α)) (t : Tree α) :
    path.length + t.height ≤ (rebuild path t).height := by
  induction path generalizing t with
  | nil => simp [rebuild]
  | cons s p ih =>
    have h1 : t.height + 1 ≤ (assemble s t).height := by
      obtain ⟨d, c, y, sib⟩ := s
      cases d
      · exact Nat.succ_le_succ (Nat.le_max_left _ _)
      · exact Nat.succ_le_succ (Nat.le_max_right _ _)
    have := ih (assemble s t)
    simp only [rebuild, List.length_cons]
    omega

end FuelProof

theorem freeNodes_map (t : Tree β) : freeNodes (t.map .valid) = t.postList := by
  induction t with
  | nil => rfl
  | node c l x r ihl ihr => simp [Tree.map, freeNodes, Tree.postList, ihl, ihr]

theorem postList_perm_toList (t : Tree β) : (t.postList).Perm t.toList := by
  induction t with
  | nil => exact .refl _
  | node c l x r ihl ihr =>
    show (l.postList ++ r.postList ++ [x]).Perm (l.toList ++ x :: r.toList)
    refine ((ihl.append ihr).append (List.Perm.refl [x])).trans ?_
    rw [List.append_assoc]
    exact List.Perm.append_left _ (List.perm_append_singleton _ _)

section ContainsProof

variable [LinearOrder β]

/-- Unfolding equation of the `containsRBTree` loop at a node holding a valid
pointer. -/
theorem containsNode_valid (c : Color) (l r : Tree (Ptr β)) (nd d : β) :
    containsNode (Tree.node c l (Ptr.valid nd) r) d =
      (match compare nd d with
      | .eq => true
      | .gt => containsNode l d
      | .lt => containsNode r d) := rfl

/-- BST search correctness: on a sorted tree of valid pointers, the descent
loop finds exactly the stored pointers. -/
theorem containsNode_spec {t : Tree (Ptr β)}
    (hs : (t.toList).Sorted (· < ·))
    (hval : ∀ z ∈ t.toList, ∃ v, z = Ptr.valid v) (d : β) :
    (containsNode t d = true ↔ Ptr.valid d ∈ t.toList) := by
  induction t with
  | nil => simp [containsNode, Tree.toList]
  | node c l od r ihl ihr =>
    have hparts := List.pairwise_append.mp
      (show ((l.toList ++ od :: r.toList)).Pairwise (· < ·) from hs)
    obtain ⟨nd, rfl⟩ := hval od (by simp [Tree.toList])
    have hl_lt : ∀ z ∈ l.toList, z < Ptr.valid nd :=
      fun z hz => hparts.2.2 z hz _ (by simp)
    have hr_gt : ∀ z ∈ r.toList, Ptr.valid nd < z :=
      fun z hz => (List.pairwise_cons.mp hparts.2.1).1 z hz
    rw [containsNode_valid]
    cases hcmp : compare nd d with
    | eq =>
      obtain rfl : nd = d := compare_eq_iff_eq.mp hcmp
      simp [Tree.toList]
    | gt =>
      have hdn : d < nd := compare_gt_iff_gt.mp hcmp
      rw [ihl hparts.1 (fun z hz => hval z (by simp [Tree.toList, hz]))]
      rw [toList_node, List.mem_append, List.mem_cons]
      constructor
      · exact fun h => .inl h
      · rintro (h | h | h)
        · exact h
        · obtain rfl : d = nd := Ptr.valid.inj h
          exact absurd rfl hdn.ne
        · have h1 : Ptr.valid nd < Ptr.valid d := hr_gt _ h
          have h2 : (Ptr.valid d : Ptr β) < Ptr.valid nd := Ptr.valid_lt_valid.mpr hdn
          exact absurd (h1.trans h2) (lt_irrefl _)
    | lt =>
      have hnd : nd < d := compare_lt_iff_lt.mp hcmp
      rw [ihr (List.pairwise_cons.mp hparts.2.1).2
        (fun z hz => hval z (by simp [Tree.toList, hz]))]
      rw [toList_node, List.mem_append, List.mem_cons]
      constructor
      · exact fun h => .inr (.inr h)
      · rintro (h | h | h)
        · have h1 : Ptr.valid d < Ptr.valid nd := hl_lt _ h
          have h2 : (Ptr.valid nd : Ptr β) < Ptr.valid d := Ptr.valid_lt_valid.mpr hnd
          exact absurd (h1.trans h2) (lt_irrefl _)
        · obtain rfl : d = nd := Ptr.valid.inj h
          exact absurd rfl hnd.ne.symm
        · exact h

end ContainsProof

/-! ## The specified claims -/

/-- C1: for every tree built by any sequence of `addToRBTree` calls with a
consistent total-order comparator, after every completed insertion the
red-black invariants hold: the root is BLACK, no RED node has a RED child,
and every path from a node to any absent-child position passes through the
same number of BLACK nodes. -/
theorem claim_C1 [LinearOrder α] {t : RBTree α} (h : Built t) :
    rootBlack t.root ∧ noRedRed t.root ∧ ∃ n, BlackHeight t.root n := by
  obtain ⟨_, ⟨n, hbal⟩, _⟩ := h.inv
  exact ⟨hbal.root_black, hbal.no_red_red, n, hbal.blackHeight⟩

/-- Witness for C1: the spec scenario inserting 10, 20, 30. -/
theorem claim_C1_witness :
    rootBlack (⟨Tree.node .black (.node .red .nil 10 .nil) 20
      (.node .red .nil 30 .nil), 3⟩ : RBTree ℕ).root ∧
    noRedRed (⟨Tree.node .black (.node .red .nil 10 .nil) 20
      (.node .red .nil 30 .nil), 3⟩ : RBTree ℕ).root ∧
    ∃ n, BlackHeight (⟨Tree.node .black (.node .red .nil 10 .nil) 20
      (.node .red .nil 30 .nil), 3⟩ : RBTree ℕ).root n := by
  have h1 : addToRBTree (newRBTree : RBTree ℕ) 10 =
      some (true, ⟨.node .black .nil 10 .nil, 1⟩) := by decide
  have h2 : addToRBTree (⟨.node .black .nil 10 .nil, 1⟩ : RBTree ℕ) 20 =
      some (true, ⟨.node .black .nil 10 (.node .red .nil 20 .nil), 2⟩) := by decide
  have h3 : addToRBTree
      (⟨.node .black .nil 10 (.node .red .nil 20 .nil), 2⟩ : RBTree ℕ) 30 =
      some (true, ⟨.node .black (.node .red .nil 10 .nil) 20
        (.node .red .nil 30 .nil), 3⟩) := by decide
  exact claim_C1 (Built.ins (Built.ins (Built.ins Built.new h1) h2) h3)

/-- C2: for every tree built by insertions, the in-order traversal
(`forEachRBTree`) visits the stored elements in strictly ascending
comparator order: the element list is strictly sorted and the traversal runs
the visitor over exactly that list. -/
theorem claim_C2 [LinearOrder α] {t : RBTree α} (h : Built t) :
    (t.root.toList).Sorted (· < ·) ∧
    ∀ (σ : Type) (f : α → σ → Bool × σ) (s : σ), t.root ≠ .nil →
      forEachRBTree t f s = some (runVisitor f t.root.toList s) :=
  ⟨h.inv.1, fun _ f s hne => forEachNode_runVisitor f t.root hne s⟩

/-- Witness for C2 at the tree built from 10, 20, 30. -/
theorem claim_C2_witness :
    ((⟨Tree.node .black (.node .red .nil 10 .nil) 20
      (.node .red .nil 30 .nil), 3⟩ : RBTree ℕ).root.toList).Sorted (· < ·) ∧
    forEachRBTree (⟨Tree.node .black (.node .red .nil 10 .nil) 20
        (.node .red .nil 30 .nil), 3⟩ : RBTree ℕ) (stopAt 5) 0 =
      some (runVisitor (stopAt 5) [10, 20, 30] 0) := by
  have h1 : addToRBTree (newRBTree : RBTree ℕ) 10 =
      some (true, ⟨.node .black .nil 10 .nil, 1⟩) := by decide
  have h2 : addToRBTree (⟨.node .black .nil 10 .nil, 1⟩ : RBTree ℕ) 20 =
      some (true, ⟨.node .black .nil 10 (.node .red .nil 20 .nil), 2⟩) := by decide
  have h3 : addToRBTree
      (⟨.node .black .nil 10 (.node .red .nil 20 .nil), 2⟩ : RBTree ℕ) 30 =
      some (true, ⟨.node .black (.node .red .nil 10 .nil) 20
        (.node .red .nil 30 .nil), 3⟩) := by decide
  have hB := Built.ins (Built.ins (Built.ins Built.new h1) h2) h3
  exact ⟨(claim_C2 hB).1, (claim_C2 hB).2 ℕ (stopAt 5) 0 (by decide)⟩

/-- C3 (code bug): `forEachRBTree` on an empty tree passes the `NULL` root to
`forEachNode` (line 450), which immediately dereferences `node->left`
(line 415); the model yields the undefined-behaviour marker `none`, not the
success the spec demands. -/
theorem claim_C3 (σ : Type) (f : α → σ → Bool × σ) (s : σ) :
    forEachRBTree (newRBTree : RBTree α) f s = none := rfl

/-- C4: an element comparing equal to a successfully inserted one is found
by `containsRBTree`; an element comparing unequal to all inserted ones is
not. -/
theorem claim_C4 [LinearOrder β] (xs : List β) {t : RBTree (Ptr β)} {k : Nat}
    (h : insertAll newRBTree (xs.map Ptr.valid) = some (t, k)) (y : β) :
    containsRBTree t (.valid y) = true ↔ y ∈ xs := by
  obtain ⟨t2, k2, heq, hB, _, hmem⟩ := insertAll_spec Built.new (xs.map Ptr.valid)
  rw [heq] at h
  obtain ⟨rfl, rfl⟩ : t2 = t ∧ k2 = k := by simpa using h
  have hsorted := hB.inv.1
  have hval : ∀ z ∈ t2.root.toList, ∃ v, z = Ptr.valid v := by
    intro z hz
    rcases (hmem z).mp hz with hz2 | hz2
    · rcases List.mem_map.mp hz2 with ⟨v, _, rfl⟩
      exact ⟨v, rfl⟩
    · simp [newRBTree, Tree.toList] at hz2
  have hmem2 : Ptr.valid y ∈ t2.root.toList ↔ y ∈ xs := by
    rw [hmem]
    simp only [newRBTree, Tree.toList, List.not_mem_nil, or_false]
    constructor
    · intro hz
      rcases List.mem_map.mp hz with ⟨v, hv, he⟩
      rwa [← Ptr.valid.inj he]
    · exact fun hy => List.mem_map.mpr ⟨y, hy, rfl⟩
  cases hroot : t2.root with
  | nil =>
    rw [hroot] at hmem2
    simp only [Tree.toList, List.not_mem_nil, false_iff] at hmem2
    rw [show containsRBTree t2 (.valid y) = (match t2.root with
      | Tree.nil => false
      | root => containsNode root y) from rfl, hroot]
    simp [hmem2]
  | node c l od r =>
    rw [show containsRBTree t2 (.valid y) = (match t2.root with
      | Tree.nil => false
      | root => containsNode root y) from rfl, hroot]
    rw [show (match Tree.node c l od r with
      | Tree.nil => false
      | root => containsNode root y) = containsNode (Tree.node c l od r) y from rfl]
    rw [← hroot, containsNode_spec hsorted hval y]
    exact hmem2

/-- Witness for C4: after inserting 2 then 1, the query 1 is found. -/
theorem claim_C4_witness :
    containsRBTree (⟨Tree.node .black (.node .red .nil (Ptr.valid 1) .nil)
        (Ptr.valid 2) .nil, 2⟩ : RBTree (Ptr ℕ)) (.valid 1) = true ↔
      (1 : ℕ) ∈ [2, 1] := by
  refine claim_C4 [2, 1] (k := 2) ?_ 1
  decide

/-- C5: inserting an element comparing equal (comparator result 0) to a
stored one returns failure, leaves the tree value (structure, colors, count)
exactly as before, frees the node allocated for the attempt (net node
allocation 0), and performs no destructor invocation. -/
theorem claim_C5 [LinearOrder α] {t : RBTree α} {x y : α} (hB : Built t)
    (hy : y ∈ t.root.toList) (hxy : compare x y = .eq) :
    addToRBTree t x = some (false, t) ∧
    addToRBTreeAlloc t x = some (false, t, 0, 0) := by
  obtain rfl : x = y := compare_eq_iff_eq.mp hxy
  have h1 := (addToRBTree_spec hB.inv).1 hy
  refine ⟨h1, ?_⟩
  rw [addToRBTreeAlloc_eq, h1]
  rfl

/-- Witness for C5: re-inserting 10 into the tree holding 10 and 20. -/
theorem claim_C5_witness :
    addToRBTree (⟨Tree.node .black .nil 10 (.node .red .nil 20 .nil), 2⟩ :
      RBTree ℕ) 10 = some (false,
        ⟨Tree.node .black .nil 10 (.node .red .nil 20 .nil), 2⟩) ∧
    addToRBTreeAlloc (⟨Tree.node .black .nil 10 (.node .red .nil 20 .nil), 2⟩ :
      RBTree ℕ) 10 = some (false,
        ⟨Tree.node .black .nil 10 (.node .red .nil 20 .nil), 2⟩, 0, 0) := by
  have h1 : addToRBTree (newRBTree : RBTree ℕ) 10 =
      some (true, ⟨.node .black .nil 10 .nil, 1⟩) := by decide
  have h2 : addToRBTree (⟨.node .black .nil 10 .nil, 1⟩ : RBTree ℕ) 20 =
      some (true, ⟨.node .black .nil 10 (.node .red .nil 20 .nil), 2⟩) := by decide
  exact claim_C5 (x := 10) (y := 10) (Built.ins (Built.ins Built.new h1) h2)
    (by decide) (by decide)

/-- C6: a visitor that signals stop exactly on the k-th element in ascending
order (continuing on all earlier ones, here realized by counting its own
invocations) makes `forEachRBTree` report failure after exactly k visitor
invocations. -/
theorem claim_C6 [LinearOrder α] {t : RBTree α} {k : Nat} (hB : Built t)
    (hne : t.root ≠ .nil) (hk1 : 1 ≤ k) (hk2 : k ≤ t.size) :
    forEachRBTree t (stopAt k) 0 = some (false, k) := by
  have hlen : t.size = t.root.toList.length := hB.inv.2.2
  rw [show forEachRBTree t (stopAt k) 0 = forEachNode (stopAt k) t.root 0 from rfl]
  rw [forEachNode_runVisitor (stopAt k) t.root hne 0]
  rw [runVisitor_stopAt (by omega) (by omega)]

/-- Witness for C6: stopping on the second of three elements. -/
theorem claim_C6_witness :
    forEachRBTree (⟨Tree.node .black (.node .red .nil 10 .nil) 20
      (.node .red .nil 30 .nil), 3⟩ : RBTree ℕ) (stopAt 2) 0 =
      some (false, 2) := by
  have h1 : addToRBTree (newRBTree : RBTree ℕ) 10 =
      some (true, ⟨.node .black .nil 10 .nil, 1⟩) := by decide
  have h2 : addToRBTree (⟨.node .black .nil 10 .nil, 1⟩ : RBTree ℕ) 20 =
      some (true, ⟨.node .black .nil 10 (.node .red .nil 20 .nil), 2⟩) := by decide
  have h3 : addToRBTree
      (⟨.node .black .nil 10 (.node .red .nil 20 .nil), 2⟩ : RBTree ℕ) 30 =
      some (true, ⟨.node .black (.node .red .nil 10 .nil) 20
        (.node .red .nil 30 .nil), 3⟩) := by decide
  exact claim_C6 (Built.ins (Built.ins (Built.ins Built.new h1) h2) h3)
    (by decide) (by decide) (by decide)

/-- C7: the count after a sequence of insertions from a fresh tree equals
the number of successful insertions (so N all-successful insertions give
count N), and an attempt failing as a duplicate does not change the count. -/
theorem claim_C7 [LinearOrder α] :
    (∀ (xs : List α) (t : RBTree α) (k : Nat),
      insertAll newRBTree xs = some (t, k) → t.size = k) ∧
    (∀ (t t' : RBTree α) (x : α),
      addToRBTree t x = some (false, t') → t'.size = t.size) := by
  constructor
  · intro xs t k h
    obtain ⟨t2, k2, heq, _, hsz, _⟩ := insertAll_spec Built.new xs
    rw [heq] at h
    obtain ⟨rfl, rfl⟩ : t2 = t ∧ k2 = k := by simpa using h
    simpa [newRBTree] using hsz
  · intro t t' x h
    rw [addToRBTree_false h]

/-- Witness for C7: three successful insertions give count 3, and a
duplicate attempt preserves the count. -/
theorem claim_C7_witness :
    (⟨Tree.node .black (.node .red .nil 1 .nil) 2 (.node .red .nil 3 .nil), 3⟩ :
      RBTree ℕ).size = 3 ∧
    (⟨Tree.node .black .nil 5 .nil, 1⟩ : RBTree ℕ).size =
      (⟨Tree.node .black .nil 5 .nil, 1⟩ : RBTree ℕ).size := by
  constructor
  · exact (claim_C7 (α := ℕ)).1 [1, 2, 3] _ 3 (by decide)
  · exact (claim_C7 (α := ℕ)).2 ⟨.node .black .nil 5 .nil, 1⟩ _ 5 (by decide)

/-- C8: the fixup recursion of `modifyNode` terminates for every node of
every finite tree: any budget exceeding the length of the node's ancestor
path (the depth from which fixup restarts, itself below the tree height)
makes the fueled fixup complete with the fixup's result, and the root case
is the terminal base of the recursion. -/
theorem claim_C8 [LinearOrder α] (t : Tree α) (path : List (Step α))
    (fuel : Nat) (h : path.length < fuel) :
    modifyNodeFuel fuel t path = some (modifyNode t path) ∧
    path.length + t.height ≤ (rebuild path t).height :=
  ⟨modifyNodeFuel_spec fuel t path h, height_rebuild path t⟩

/-- Witness for C8 at a node of depth 1. -/
theorem claim_C8_witness :
    modifyNodeFuel 2 (Tree.node .red .nil (5 : ℕ) .nil)
        [⟨.left, .black, 7, .nil⟩] =
      some (modifyNode (Tree.node .red .nil (5 : ℕ) .nil)
        [⟨.left, .black, 7, .nil⟩]) ∧
    ([⟨.left, .black, (7 : ℕ), .nil⟩] : List (Step ℕ)).length +
        (Tree.node .red .nil (5 : ℕ) .nil).height ≤
      (rebuild [⟨.left, .black, 7, .nil⟩] (Tree.node .red .nil (5 : ℕ) .nil)).height :=
  claim_C8 _ _ 2 (by decide)

/-- C9: `freeRBTree` passes each stored element to the destructor exactly
once, in post-order (left subtree, right subtree, then the node's element),
and passes nothing on an empty tree. -/
theorem claim_C9 (t : Tree β) (sz : Nat) :
    freeRBTree ⟨Tree.map .valid t, sz⟩ = t.postList ∧
    (t.postList).Perm t.toList ∧
    freeRBTree (⟨.nil, 0⟩ : RBTree (Ptr β)) = [] :=
  ⟨freeNodes_map t, postList_perm_toList t, rfl⟩

/-- C10: `addToRBTree` does not validate its element, so inserting `NULL`
into an empty tree succeeds and sets the count to 1, while `containsRBTree`
answers failure to a `NULL` query on every tree without invoking the
comparator — a stored `NULL` element is therefore never reported present. -/
theorem claim_C10 [LinearOrder β] :
    addToRBTree (newRBTree : RBTree (Ptr β)) .null =
      some (true, ⟨.node .black .nil .null .nil, 1⟩) ∧
    (∀ t : RBTree (Ptr β), containsRBTree t .null = false) ∧
    (∀ t : RBTree (Ptr β), containsRBTreeCmps t .null = (false, 0)) :=
  ⟨rfl, fun _ => rfl, fun _ => rfl⟩

end RBC
